import Mathlib

/-!
Verification of the cosmic-octaves permutation-testing core.

Shallow embedding of the match-counting and permutation-test statistics of
`src/octave_analysis.py`, `code/delta_scan.py`, `code/permutation_test.py`
and `src/force_clustering_test.py`.  Real-valued data is modelled over `ℚ`
(the scripts only ever add, subtract, divide and compare), list indices over
`ℕ`, and Python's `IndexError` / `ZeroDivisionError` as `Option` failures.
-/

/-- Canonical (small_index, large_index) pairs, `DEFAULT_PAIRS` of
`octave_analysis.py` and the module-level `pairs` of `delta_scan.py` and
`permutation_test.py`. -/
def DEFAULT_PAIRS : List (ℕ × ℕ) :=
  [(0, 8), (1, 9), (2, 10), (3, 11), (4, 12), (5, 13), (6, 14)]

/-- Canonical 15 log10(L) values, `DEFAULT_LOGS` of `octave_analysis.py`
(also the module-level `logs` arrays of the two scripts), as exact rationals. -/
def DEFAULT_LOGS : List ℚ :=
  [-1508/100, -1028/100, -796/100, -6, -330/100, -46/1000, 3,
   680/100, 884/100, 1265/100, 1667/100, 18665/1000, 2070/100, 2384/100, 2664/100]

/-- Total-function embedding of `get_deviations(logs, delta, pairs)` of
`octave_analysis.py`: the list `|(logs[j] - logs[i]) - delta|` over the pairs.
Out-of-bounds indices are resolved with `getD _ 0` here; the fallible version
`get_deviations_checked` below models the `IndexError` behaviour. -/
def get_deviations (logs : List ℚ) (delta : ℚ) (pairs : List (ℕ × ℕ)) : List ℚ :=
  pairs.map (fun p => |logs.getD p.2 0 - logs.getD p.1 0 - delta|)

/-- Embedding of `count_strong_matches(logs, delta, threshold, pairs)` of
`octave_analysis.py`: `np.sum(devs <= threshold)` over `get_deviations`. -/
def count_strong_matches (logs : List ℚ) (delta threshold : ℚ)
    (pairs : List (ℕ × ℕ)) : ℕ :=
  (get_deviations logs delta pairs).countP (fun d => decide (d ≤ threshold))

/-- Embedding of `count_strong_all_pairs(arr, delta, thresh)` of
`force_clustering_test.py`: the double loop `for i in range(n): for j in
range(i+1, n)` counting `|(arr[j] - arr[i]) - delta| <= thresh`, written as
structural recursion on the list (the head plays the role of index `i`). -/
def count_strong_all_pairs : List ℚ → ℚ → ℚ → ℕ
  | [], _, _ => 0
  | a :: l, delta, thresh =>
      l.countP (fun b => decide (|b - a - delta| ≤ thresh)) +
        count_strong_all_pairs l delta thresh

/-- Embedding of `count_strong_cross_domain(arr, n_base, delta, thresh)` of
`force_clustering_test.py`: the double loop `for i in range(n_base): for j in
range(n_base, len(arr))` counting `|(arr[j] - arr[i]) - delta| <= thresh`. -/
def count_strong_cross_domain (arr : List ℚ) (n_base : ℕ) (delta thresh : ℚ) : ℕ :=
  ∑ i ∈ Finset.range n_base, ∑ j ∈ Finset.Ico n_base arr.length,
    if |arr.getD j 0 - arr.getD i 0 - delta| ≤ thresh then 1 else 0

/-- Empirical p-value `p = count / n_trials` (computed with `/` on exact
rationals; `n_trials` is an `ℤ` as in the scripts). -/
def p_empirical (count n_trials : ℤ) : ℚ := (count : ℚ) / (n_trials : ℚ)

/-- Conservative add-one upper bound `p_upper = (count + 1) / (n_trials + 1)`
from `delta_scan.py` and `force_clustering_test.py`. -/
def p_upper (count n_trials : ℤ) : ℚ := ((count : ℚ) + 1) / ((n_trials : ℚ) + 1)

/-- The claim C1, p_empirical < p_upper, fails at count = n_trials = 1: there
`p_empirical = 1/1 = 1` and `p_upper = 2/2 = 1`, so the strict inequality of
the claim does not hold. -/
theorem C1_counterexample : ¬ p_empirical 1 1 < p_upper 1 1 := by
  norm_num [p_empirical, p_upper]

/-- Amended C1: for `n_trials ≥ 1` and `0 ≤ count ≤ n_trials`, `p_upper` is
at least `p_empirical`, strictly greater exactly when `count < n_trials`
(at `count = n_trials` both equal 1), and `p_upper` is strictly positive. -/
theorem C1_p_upper_bounds (count n_trials : ℤ) (h1 : 1 ≤ n_trials)
    (h0 : 0 ≤ count) (hc : count ≤ n_trials) :
    p_empirical count n_trials ≤ p_upper count n_trials ∧
      (count < n_trials → p_empirical count n_trials < p_upper count n_trials) ∧
      0 < p_upper count n_trials := by
  have hn : (0 : ℚ) < (n_trials : ℚ) := by exact_mod_cast h1
  have hn1 : (0 : ℚ) < (n_trials : ℚ) + 1 := by linarith
  have hcq : ((count : ℚ)) ≤ (n_trials : ℚ) := by exact_mod_cast hc
  have hc0 : (0 : ℚ) ≤ (count : ℚ) := by exact_mod_cast h0
  refine ⟨?_, ?_, ?_⟩
  · rw [p_empirical, p_upper, div_le_div_iff₀ hn hn1]
    nlinarith
  · intro hlt
    have hltq : ((count : ℚ)) < (n_trials : ℚ) := by exact_mod_cast hlt
    rw [p_empirical, p_upper, div_lt_div_iff₀ hn hn1]
    nlinarith
  · rw [p_upper]
    positivity

/-- Witness for the amended C1 at count = 0, n_trials = 1:
`p_empirical = 0 < 1/2 = p_upper`. -/
theorem C1_p_upper_bounds_witness :
    p_empirical 0 1 < p_upper 0 1 ∧ 0 < p_upper 0 1 := by
  have h := C1_p_upper_bounds 0 1 (by decide) (by decide) (by decide)
  exact ⟨h.2.1 (by decide), h.2.2⟩

/-- The claim C2 fails: `[24, 0]` is a permutation of `[0, 24]`, yet with
delta 24 and threshold 1/5 the all-pairs count is 1 on the first arrangement
and 0 on the second — the pair difference is taken later-minus-earlier, so the
count depends on the arrangement, not only on the multiset of values. -/
theorem C2_counterexample :
    List.Perm [(0 : ℚ), 24] [24, 0] ∧
      count_strong_all_pairs [0, 24] 24 (1/5) = 1 ∧
      count_strong_all_pairs [24, 0] 24 (1/5) = 0 := by
  refine ⟨List.Perm.swap 24 0 [], ?_, ?_⟩ <;>
    norm_num [count_strong_all_pairs, List.countP_cons]

/-- Amended C2: the all-pairs count is permutation invariant when the
deviation predicate is symmetric in the pair, i.e. for `delta = 0`: for every
threshold, shuffling the sequence leaves `count_strong_all_pairs _ 0 t`
unchanged (it then depends only on the multiset of values). -/
theorem C2_all_pairs_perm_invariant_delta_zero (l1 l2 : List ℚ) (t : ℚ)
    (h : l1.Perm l2) :
    count_strong_all_pairs l1 0 t = count_strong_all_pairs l2 0 t := by
  induction h with
  | nil => rfl
  | cons x h ih =>
      simp only [count_strong_all_pairs, ih, h.countP_eq]
  | swap x y l =>
      simp only [count_strong_all_pairs, List.countP_cons]
      have hxy : (decide (|x - y - 0| ≤ t)) = (decide (|y - x - 0| ≤ t)) := by
        rw [sub_zero, sub_zero, abs_sub_comm]
      rw [hxy]
      omega
  | trans _ _ ih1 ih2 => exact ih1.trans ih2

/-- Witness for the amended C2 on the concrete swap `[0, 24] ~ [24, 0]`. -/
theorem C2_all_pairs_perm_invariant_delta_zero_witness :
    count_strong_all_pairs [(0 : ℚ), 24] 0 (1/5) =
      count_strong_all_pairs [24, 0] 0 (1/5) :=
  C2_all_pairs_perm_invariant_delta_zero _ _ _ (List.Perm.swap 24 0 [])

/-- The claim C3 fails: for the permuted arrangement `[24, 0]` of the
sequence `[0, 24]` with pair `(0, 1)`, delta 24 and threshold 1/5, the
deviation is `|(0 - 24) - 24| = 48`, not 0, and the recomputed strong-match
count is 0, not ≥ 1. -/
theorem C3_counterexample :
    List.Perm [(0 : ℚ), 24] [24, 0] ∧
      count_strong_matches [24, 0] 24 (1/5) [(0, 1)] = 0 := by
  refine ⟨List.Perm.swap 24 0 [], ?_⟩
  norm_num [count_strong_matches, get_deviations, List.countP_cons]

/-- Amended C3: the observed count on `[0, 24]` is 1 (deviation 0), and the
identity arrangement again scores 1, but the swapped arrangement `[24, 0]`
has deviation 48 and count 0; so not every permutation trial matches, and
`p_empirical` is the fraction of trials drawing the identity arrangement
rather than 1.0. -/
theorem C3_two_element_scenario :
    count_strong_matches [(0 : ℚ), 24] 24 (1/5) [(0, 1)] = 1 ∧
      count_strong_matches [24, 0] 24 (1/5) [(0, 1)] = 0 ∧
      get_deviations [24, 0] 24 [(0, 1)] = [48] := by
  refine ⟨?_, ?_, ?_⟩ <;>
    norm_num [count_strong_matches, get_deviations, List.countP_cons]

/-- Length of `np.arange(start, stop, step)` for a positive `step`:
`ceil((stop - start) / step)` grid points when `start < stop`, else 0. -/
def arangeLen (start stop step : ℚ) : ℕ :=
  if start < stop then (⌈(stop - start) / step⌉).toNat else 0

/-- Embedding of `np.arange(start, stop, step)` (positive step): the grid
points `start + k * step` for `k = 0, …, arangeLen - 1`. -/
def npArange (start stop step : ℚ) : List ℚ :=
  (List.range (arangeLen start stop step)).map
    (fun k : ℕ => start + (k : ℚ) * step)

/-- The scan loop shared by both `max_strong_matches_in_scan` variants: fold
over the grid keeping `(max_strong, best_delta)`, replacing the running best
only when the new count is strictly greater (`if strong > max_strong`). -/
def scanAux (cnt : ℚ → ℕ) : List ℚ → ℤ × Option ℚ → ℤ × Option ℚ
  | [], acc => acc
  | d :: ds, acc =>
      scanAux cnt ds (if acc.1 < (cnt d : ℤ) then ((cnt d : ℤ), some d) else acc)

/-- Embedding of `max_strong_matches_in_scan` of `octave_analysis.py`: grid
`np.arange(delta_min, delta_max + step/2, step)`, running maximum initialised
to `-1`, best delta to `nan` (modelled as `none`, overwritten on the first
grid point since every count is ≥ 0 > -1). -/
def max_strong_matches_in_scan (logs : List ℚ)
    (delta_min delta_max step threshold : ℚ) (pairs : List (ℕ × ℕ)) :
    ℤ × Option ℚ :=
  scanAux (fun d => count_strong_matches logs d threshold pairs)
    (npArange delta_min (delta_max + step / 2) step) (-1, none)

/-- Embedding of `max_strong_matches_in_scan` of `delta_scan.py`: same grid
and loop, but the running maximum starts at `0` and the best delta at `None`;
the pairs are the module-level canonical pairs and the threshold is `0.2`. -/
def ds_max_strong_matches_in_scan (array : List ℚ)
    (delta_min delta_max step : ℚ) : ℤ × Option ℚ :=
  scanAux (fun d => count_strong_matches array d (1/5) DEFAULT_PAIRS)
    (npArange delta_min (delta_max + step / 2) step) (0, none)

/-- If no grid point strictly beats the running maximum, the scan fold
returns its accumulator unchanged. -/
theorem scanAux_of_le (cnt : ℚ → ℕ) (ds : List ℚ) :
    ∀ (m : ℤ) (b : Option ℚ),
      (∀ d ∈ ds, (cnt d : ℤ) ≤ m) → scanAux cnt ds (m, b) = (m, b) := by
  induction ds with
  | nil => intro m b _; rfl
  | cons d ds ih =>
      intro m b h
      have hd : ¬ ((m, b).1 < (cnt d : ℤ)) := not_lt.mpr (h d (by simp))
      simp only [scanAux, if_neg hd]
      exact ih m b (fun x hx => h x (by simp [hx]))

/-- Characterisation of the scan fold: either nothing beats the initial
maximum and the accumulator survives, or the result is the count of a grid
point `e` that strictly beats everything before it and is not beaten by
anything after it — i.e. the maximum together with its first witness. -/
theorem scanAux_spec (cnt : ℚ → ℕ) (ds : List ℚ) :
    ∀ (m : ℤ) (b : Option ℚ),
      (scanAux cnt ds (m, b) = (m, b) ∧ ∀ d ∈ ds, (cnt d : ℤ) ≤ m) ∨
      ∃ e l1 l2, ds = l1 ++ e :: l2 ∧
        scanAux cnt ds (m, b) = ((cnt e : ℤ), some e) ∧ m < (cnt e : ℤ) ∧
        (∀ x ∈ l1, cnt x < cnt e) ∧ (∀ x ∈ l2, cnt x ≤ cnt e) := by
  induction ds with
  | nil => intro m b; left; exact ⟨rfl, by simp⟩
  | cons d ds ih =>
      intro m b
      by_cases hd : ((m, b) : ℤ × Option ℚ).1 < (cnt d : ℤ)
      · have hstep : scanAux cnt (d :: ds) (m, b) =
            scanAux cnt ds ((cnt d : ℤ), some d) := by
          simp only [scanAux, if_pos hd]
        rcases ih (cnt d) (some d) with ⟨heq, hall⟩ |
          ⟨e, l1, l2, hds, heq, hlt, h1, h2⟩
        · right
          refine ⟨d, [], ds, by simp, ?_, hd, by simp, ?_⟩
          · rw [hstep, heq]
          · intro x hx; exact_mod_cast hall x hx
        · right
          refine ⟨e, d :: l1, l2, by rw [hds]; rfl, ?_, lt_trans hd hlt, ?_, h2⟩
          · rw [hstep, heq]
          · intro x hx
            rcases List.mem_cons.mp hx with hxd | hxl
            · subst hxd; exact_mod_cast hlt
            · exact h1 x hxl
      · have hstep : scanAux cnt (d :: ds) (m, b) = scanAux cnt ds (m, b) := by
          simp only [scanAux, if_neg hd]
        rcases ih m b with ⟨heq, hall⟩ | ⟨e, l1, l2, hds, heq, hlt, h1, h2⟩
        · left
          refine ⟨by rw [hstep, heq], ?_⟩
          intro x hx
          rcases List.mem_cons.mp hx with hxd | hxl
          · subst hxd; exact not_lt.mp hd
          · exact hall x hxl
        · right
          refine ⟨e, d :: l1, l2, by rw [hds]; rfl, by rw [hstep, heq], hlt, ?_, h2⟩
          intro x hx
          rcases List.mem_cons.mp hx with hxd | hxl
          · rw [hxd]
            have hle : (cnt d : ℤ) ≤ m := not_lt.mp hd
            exact_mod_cast lt_of_le_of_lt hle hlt
          · exact h1 x hxl

/-- The arange grid is nonempty as soon as `start < stop` and the step is
positive. -/
theorem arangeLen_pos (start stop step : ℚ) (hstep : 0 < step)
    (h : start < stop) : 0 < arangeLen start stop step := by
  rw [arangeLen, if_pos h]
  have hq : 0 < (stop - start) / step := div_pos (by linarith) hstep
  have hc : 0 < ⌈(stop - start) / step⌉ := Int.ceil_pos.mpr hq
  omega

/-- A nonempty arange grid starts at its `start` value. -/
theorem npArange_eq_cons (start stop step : ℚ)
    (h : 0 < arangeLen start stop step) :
    ∃ r, npArange start stop step = start :: r := by
  obtain ⟨n, hn⟩ : ∃ n, arangeLen start stop step = n + 1 :=
    ⟨arangeLen start stop step - 1, by omega⟩
  refine ⟨(List.range n).map (fun k : ℕ => start + ((k : ℚ) + 1) * step), ?_⟩
  rw [npArange, hn, List.range_succ_eq_map, List.map_cons, List.map_map]
  congr 1
  · norm_num
  · refine List.map_congr_left ?_
    intro k _
    simp only [Function.comp_apply, Nat.succ_eq_add_one]
    push_cast
    ring

/-- Helper: a scan from `(-1, none)` over a grid whose counts are all zero
installs the zero count at the head point and never replaces it. -/
theorem scanAux_zero_head (cnt : ℚ → ℕ) (d : ℚ) (r : List ℚ)
    (hd : cnt d = 0) (hr : ∀ x ∈ r, cnt x = 0) :
    scanAux cnt (d :: r) (-1, none) = (0, some d) := by
  simp only [scanAux, hd, Nat.cast_zero]
  rw [if_pos (by norm_num)]
  exact scanAux_of_le cnt r 0 (some d) (fun x hx => by rw [hr x hx]; norm_num)

/-- C4: for every sequence, pair set, threshold and valid scan range
(positive step, `delta_min ≤ delta_max`) the scanner of `octave_analysis.py`
returns the maximum `count_strong` over the scanned grid together with the
first spacing achieving it: the grid splits as `l1 ++ d :: l2` where every
earlier spacing scores strictly less (ties go to the earliest spacing, since
only a strictly greater count replaces the running best) and every later
spacing scores no more. -/
theorem C4_scan_max_first_argmax (logs : List ℚ) (pairs : List (ℕ × ℕ))
    (delta_min delta_max step threshold : ℚ)
    (hstep : 0 < step) (hrange : delta_min ≤ delta_max) :
    ∃ d l1 l2,
      npArange delta_min (delta_max + step / 2) step = l1 ++ d :: l2 ∧
      max_strong_matches_in_scan logs delta_min delta_max step threshold pairs =
        ((count_strong_matches logs d threshold pairs : ℤ), some d) ∧
      (∀ x ∈ l1, count_strong_matches logs x threshold pairs <
        count_strong_matches logs d threshold pairs) ∧
      (∀ x ∈ l2, count_strong_matches logs x threshold pairs ≤
        count_strong_matches logs d threshold pairs) := by
  have hlt : delta_min < delta_max + step / 2 := by linarith
  obtain ⟨r, hr⟩ := npArange_eq_cons _ _ _ (arangeLen_pos _ _ _ hstep hlt)
  rcases scanAux_spec (fun d => count_strong_matches logs d threshold pairs)
      (npArange delta_min (delta_max + step / 2) step) (-1) none with
    ⟨heq, hall⟩ | ⟨e, l1, l2, hds, heq, hlt2, h1, h2⟩
  · exfalso
    have h := hall delta_min (by rw [hr]; exact List.mem_cons_self _ _)
    have h0 : (0 : ℤ) ≤ (count_strong_matches logs delta_min threshold pairs : ℤ) :=
      Int.ofNat_nonneg _
    simp only at h
    omega
  · exact ⟨e, l1, l2, hds, heq, h1, h2⟩

/-- Witness for C4 at the degenerate valid range `delta_min = delta_max = 24`
with step 1, sequence `[0, 24]` and pair `(0, 1)`. -/
theorem C4_scan_max_first_argmax_witness :
    ∃ d l1 l2,
      npArange 24 (24 + 1 / 2) 1 = l1 ++ d :: l2 ∧
      max_strong_matches_in_scan [(0 : ℚ), 24] 24 24 1 (1/5) [(0, 1)] =
        ((count_strong_matches [(0 : ℚ), 24] d (1/5) [(0, 1)] : ℤ), some d) ∧
      (∀ x ∈ l1, count_strong_matches [(0 : ℚ), 24] x (1/5) [(0, 1)] <
        count_strong_matches [(0 : ℚ), 24] d (1/5) [(0, 1)]) ∧
      (∀ x ∈ l2, count_strong_matches [(0 : ℚ), 24] x (1/5) [(0, 1)] ≤
        count_strong_matches [(0 : ℚ), 24] d (1/5) [(0, 1)]) :=
  C4_scan_max_first_argmax [(0 : ℚ), 24] [(0, 1)] 24 24 1 (1/5)
    (by norm_num) (by norm_num)

/-- C6: with an empty pair set the count is 0 for every sequence, delta and
threshold, and for every valid scan range the scanner returns
`(0, delta_min)`: the zero count at the first grid point `delta_min` beats
the initial `-1` and is never strictly exceeded. -/
theorem C6_empty_pair_set (logs : List ℚ) (delta threshold : ℚ)
    (delta_min delta_max step : ℚ) (hstep : 0 < step)
    (hrange : delta_min ≤ delta_max) :
    count_strong_matches logs delta threshold [] = 0 ∧
      max_strong_matches_in_scan logs delta_min delta_max step threshold [] =
        (0, some delta_min) := by
  refine ⟨rfl, ?_⟩
  have hlt : delta_min < delta_max + step / 2 := by linarith
  obtain ⟨r, hr⟩ := npArange_eq_cons _ _ _ (arangeLen_pos _ _ _ hstep hlt)
  show scanAux _ _ _ = _
  rw [hr]
  exact scanAux_zero_head _ _ _ rfl (fun x _ => rfl)

/-- Witness for C6 at the concrete range `[24, 24]`, step 1, empty sequence
and empty pair set. -/
theorem C6_empty_pair_set_witness :
    count_strong_matches [] 24 (1/5) [] = 0 ∧
      max_strong_matches_in_scan [] 24 24 1 (1/5) [] = (0, some 24) :=
  C6_empty_pair_set [] 24 (1/5) 24 24 1 (by norm_num) (by norm_num)

/-- C10: on any input whose counts vanish on the whole grid of a valid scan
range, the `delta_scan.py` variant (running maximum initialised to 0, best
delta to `None`) returns `(0, none)` because no count is strictly greater
than 0, while the `octave_analysis.py` variant (running maximum initialised
to -1) returns `(0, delta_min)`, the first grid point. -/
theorem C10_scan_variant_divergence (logs : List ℚ)
    (delta_min delta_max step : ℚ) (hstep : 0 < step)
    (hrange : delta_min ≤ delta_max)
    (hzero : ∀ d ∈ npArange delta_min (delta_max + step / 2) step,
      count_strong_matches logs d (1/5) DEFAULT_PAIRS = 0) :
    ds_max_strong_matches_in_scan logs delta_min delta_max step = (0, none) ∧
      max_strong_matches_in_scan logs delta_min delta_max step (1/5)
        DEFAULT_PAIRS = (0, some delta_min) := by
  have hlt : delta_min < delta_max + step / 2 := by linarith
  obtain ⟨r, hr⟩ := npArange_eq_cons _ _ _ (arangeLen_pos _ _ _ hstep hlt)
  constructor
  · show scanAux _ _ _ = _
    exact scanAux_of_le _ _ 0 none (fun d hd => by rw [hzero d hd]; norm_num)
  · show scanAux _ _ _ = _
    rw [hr]
    exact scanAux_zero_head _ _ _
      (hzero delta_min (by rw [hr]; exact List.mem_cons_self _ _))
      (fun x hx => hzero x (by rw [hr]; exact List.mem_cons_of_mem _ hx))

/-- Witness for C10 at the empty sequence (every deviation is `|0-0-d| = d`,
far above the 0.2 threshold on the grid `[24]`). -/
theorem C10_scan_variant_divergence_witness :
    ds_max_strong_matches_in_scan [] 24 24 1 = (0, none) ∧
      max_strong_matches_in_scan [] 24 24 1 (1/5) DEFAULT_PAIRS =
        (0, some 24) := by
  have hg : npArange 24 (24 + 1 / 2) 1 = [24] := by
    rw [npArange, arangeLen, if_pos (by norm_num)]
    rw [show ((24 : ℚ) + 1 / 2 - 24) / 1 = 1 / 2 by norm_num]
    rw [show ⌈(1 : ℚ) / 2⌉ = 1 by rw [Int.ceil_eq_iff]; norm_num]
    simp [List.range_succ]
  refine C10_scan_variant_divergence [] 24 24 1 (by norm_num) (by norm_num) ?_
  intro d hd
  rw [hg] at hd
  simp only [List.mem_singleton] at hd
  rw [hd]
  norm_num [count_strong_matches, get_deviations, DEFAULT_PAIRS,
    List.countP_cons]

/-- C5: `count_strong_cross_domain` counts exactly the pairs `(i, j)` with
`i ∈ [0, n_base)` and `j ∈ [n_base, length)` whose deviation
`|(arr[j] - arr[i]) - delta|` is at most the threshold; and on base group
`[0, 24.1]` (n_base = 2) with added group `[24.0]`, delta 24, threshold 0.2,
pair `(0,2)` matches (deviation 0) while `(1,2)` does not (deviation 24.1),
so the observed cross count is 1. -/
theorem C5_cross_domain_counts_pairs :
    (∀ (arr : List ℚ) (n_base : ℕ) (delta thresh : ℚ),
      count_strong_cross_domain arr n_base delta thresh =
        ((Finset.range n_base ×ˢ Finset.Ico n_base arr.length).filter
          (fun p => |arr.getD p.2 0 - arr.getD p.1 0 - delta| ≤ thresh)).card) ∧
      count_strong_cross_domain [0, 241/10, 24] 2 24 (1/5) = 1 := by
  constructor
  · intro arr n_base delta thresh
    rw [Finset.card_filter, Finset.sum_product]
    rfl
  · rw [count_strong_cross_domain]
    norm_num [Finset.sum_range_succ, show Finset.Ico 2 3 = {2} from rfl,
      Finset.sum_singleton, Finset.filter_singleton, List.getD]
    rw [abs_of_nonneg (by norm_num : (0 : ℚ) ≤ 241 / 10)]
    norm_num

/-- C7: the threshold comparison is inclusive (`<=`, not `<`): a pair whose
deviation equals the threshold exactly contributes, so the strong-match count
is at least 1. -/
theorem C7_threshold_inclusive (logs : List ℚ) (delta threshold : ℚ)
    (pairs : List (ℕ × ℕ)) (i j : ℕ) (hmem : (i, j) ∈ pairs)
    (hdev : |logs.getD j 0 - logs.getD i 0 - delta| = threshold) :
    1 ≤ count_strong_matches logs delta threshold pairs := by
  rw [count_strong_matches]
  have hmem' : |logs.getD j 0 - logs.getD i 0 - delta| ∈
      get_deviations logs delta pairs :=
    List.mem_map.mpr ⟨(i, j), hmem, rfl⟩
  exact List.countP_pos_iff.mpr ⟨_, hmem', by rw [hdev]; simp⟩

/-- Witness for C7: sequence `[0, 24.2]`, pair `(0, 1)`, delta 24 —
the deviation is exactly the threshold `0.2` and the pair is counted. -/
theorem C7_threshold_inclusive_witness :
    1 ≤ count_strong_matches [0, 121/5] 24 (1/5) [(0, 1)] :=
  C7_threshold_inclusive [0, 121/5] 24 (1/5) [(0, 1)] 0 1 (by simp)
    (by norm_num [List.getD])

/-- Fallible embedding of `get_deviations`: indexing a numpy array out of
bounds (in particular indexing an empty array) raises `IndexError`, modelled
as `none`; otherwise the whole deviation list is built. -/
def get_deviations_checked : List ℚ → ℚ → List (ℕ × ℕ) → Option (List ℚ)
  | _, _, [] => some []
  | logs, delta, (i, j) :: ps =>
      match logs.get? i, logs.get? j, get_deviations_checked logs delta ps with
      | some a, some b, some rest => some (|b - a - delta| :: rest)
      | _, _, _ => none

/-- C8: `get_deviations` fails exactly when some pair index is out of bounds
for the value sequence — in particular always when the sequence is empty and
the pair set is not — and on success returns one non-negative deviation per
pair. -/
theorem C8_get_deviations_domain (logs : List ℚ) (delta : ℚ)
    (pairs : List (ℕ × ℕ)) :
    (get_deviations_checked logs delta pairs = none ↔
      ∃ p ∈ pairs, logs.length ≤ p.1 ∨ logs.length ≤ p.2) ∧
      (logs = [] → pairs ≠ [] →
        get_deviations_checked logs delta pairs = none) ∧
      ∀ l, get_deviations_checked logs delta pairs = some l →
        l.length = pairs.length ∧ ∀ d ∈ l, 0 ≤ d := by
  induction pairs with
  | nil =>
      refine ⟨by simp [get_deviations_checked], by simp, ?_⟩
      intro l hl
      rw [get_deviations_checked] at hl
      cases hl
      simp
  | cons p ps ih =>
      obtain ⟨i, j⟩ := p
      rcases ih with ⟨ih1, _, ih3⟩
      have h1 : get_deviations_checked logs delta ((i, j) :: ps) = none ↔
          ∃ q ∈ (i, j) :: ps, logs.length ≤ q.1 ∨ logs.length ≤ q.2 := by
        cases hi : logs.get? i with
        | none =>
            have hlen : logs.length ≤ i := List.get?_eq_none.mp hi
            have hres : get_deviations_checked logs delta ((i, j) :: ps) =
                none := by
              simp only [get_deviations_checked, hi]
            exact ⟨fun _ => ⟨(i, j), List.mem_cons_self _ _, Or.inl hlen⟩,
              fun _ => hres⟩
        | some a =>
            have hleni : ¬ logs.length ≤ i := fun hlen => by
              rw [List.get?_eq_none.mpr hlen] at hi
              exact Option.noConfusion hi
            cases hj : logs.get? j with
            | none =>
                have hlen : logs.length ≤ j := List.get?_eq_none.mp hj
                have hres : get_deviations_checked logs delta ((i, j) :: ps) =
                    none := by
                  simp only [get_deviations_checked, hi, hj]
                exact ⟨fun _ => ⟨(i, j), List.mem_cons_self _ _, Or.inr hlen⟩,
                  fun _ => hres⟩
            | some b =>
                have hlenj : ¬ logs.length ≤ j := fun hlen => by
                  rw [List.get?_eq_none.mpr hlen] at hj
                  exact Option.noConfusion hj
                cases hrest : get_deviations_checked logs delta ps with
                | none =>
                    have hres : get_deviations_checked logs delta
                        ((i, j) :: ps) = none := by
                      simp only [get_deviations_checked, hi, hj, hrest]
                    refine ⟨fun _ => ?_, fun _ => hres⟩
                    obtain ⟨q, hq, hqb⟩ := ih1.mp hrest
                    exact ⟨q, List.mem_cons_of_mem _ hq, hqb⟩
                | some rest =>
                    have hres : get_deviations_checked logs delta
                        ((i, j) :: ps) = some (|b - a - delta| :: rest) := by
                      simp only [get_deviations_checked, hi, hj, hrest]
                    constructor
                    · intro h
                      rw [hres] at h
                      exact Option.noConfusion h
                    · rintro ⟨q, hq, hqb⟩
                      exfalso
                      rcases List.mem_cons.mp hq with hq1 | hq2
                      · rw [hq1] at hqb
                        rcases hqb with h | h
                        · exact absurd h hleni
                        · exact absurd h hlenj
                      · have hcontra : get_deviations_checked logs delta ps =
                            none := ih1.mpr ⟨q, hq2, hqb⟩
                        rw [hcontra] at hrest
                        exact Option.noConfusion hrest
      refine ⟨h1, ?_, ?_⟩
      · intro hlogs _
        refine h1.mpr ⟨(i, j), List.mem_cons_self _ _, Or.inl ?_⟩
        rw [hlogs]
        exact Nat.zero_le i
      · intro l hl
        rw [get_deviations_checked] at hl
        cases hi : logs.get? i with
        | none => rw [hi] at hl; exact Option.noConfusion hl
        | some a =>
            cases hj : logs.get? j with
            | none => rw [hi, hj] at hl; exact Option.noConfusion hl
            | some b =>
                cases hrest : get_deviations_checked logs delta ps with
                | none => rw [hi, hj, hrest] at hl; exact Option.noConfusion hl
                | some rest =>
                    rw [hi, hj, hrest] at hl
                    cases hl
                    obtain ⟨hlen, hpos⟩ := ih3 rest hrest
                    refine ⟨by simp [hlen], ?_⟩
                    intro d hd
                    rcases List.mem_cons.mp hd with hd1 | hd2
                    · rw [hd1]; exact abs_nonneg _
                    · exact hpos d hd2

/-- Witness for C8: the empty sequence with the nonempty pair set `[(0, 1)]`
fails with the invalid-input error. -/
theorem C8_get_deviations_domain_witness :
    get_deviations_checked [] 24 [(0, 1)] = none := by
  have h := C8_get_deviations_domain [] 24 [(0, 1)]
  exact h.2.1 rfl (by simp)

/-- Python division on rationals: a zero denominator raises
`ZeroDivisionError`, modelled as `none`. -/
def pydiv (a b : ℚ) : Option ℚ := if b = 0 then none else some (a / b)

/-- Embedding of the trial loop and p-value report of the permutation-test
drivers (`main` of `force_clustering_test.py`; likewise the module level of
`delta_scan.py`): the per-trial statistic is abstracted as `stat t`.  The
scripts perform no validation of `n_trials`: the loop body runs once per
element of `range(n_trials)` (empty when `n_trials ≤ 0`), `count_exceeds`
counts trials with statistic ≥ observed, and the two p-values
`count / n_trials` and `(count + 1) / (n_trials + 1)` are then computed by
Python division.  Result `none` models a run dying with an uncaught
`ZeroDivisionError`; `some (p, pu)` a run that completes and reports
`(p_empirical, p_upper)`. -/
def run_permutation_driver (stat : ℕ → ℕ) (observed : ℕ) (n_trials : ℤ) :
    Option (ℚ × ℚ) :=
  let count_exceeds : ℕ :=
    ((List.range n_trials.toNat).filter
      (fun t => decide (observed ≤ stat t))).length
  match pydiv (count_exceeds : ℚ) (n_trials : ℚ),
      pydiv ((count_exceeds : ℚ) + 1) ((n_trials : ℚ) + 1) with
  | some p, some pu => some (p, pu)
  | _, _ => none

/-- C9 (code bug): the drivers never validate `n_trials`, so a run with
`n_trials = -2` is not aborted as an invalid configuration: the trial loop is
empty, the run completes, and the nonsensical pair `p_empirical = 0`,
`p_upper = -1` is reported as if the run were complete.  (With
`n_trials = 0` the run dies with an uncaught `ZeroDivisionError`, and only
after the loop — not an immediate invalid-configuration abort either.) -/
theorem C9_driver_accepts_nonpositive_trials (stat : ℕ → ℕ) (observed : ℕ) :
    run_permutation_driver stat observed (-2) = some (0, -1) ∧
      run_permutation_driver stat observed 0 = none := by
  constructor <;>
  · rw [run_permutation_driver]
    norm_num [pydiv, show ((-2 : ℤ)).toNat = 0 from rfl]
